import Mathlib

/-!
Verification development for the narratopia-backend chapter ordering &
versioning engine and the entity relationship graph.

The definitions below are a shallow embedding of the JavaScript
controllers (chapter controller and relationship controller) together
with the Mongoose schema constraints of `models/Chapter.js` and
`models/Relationship.js`.  Persisted collections are modelled as Lean
lists (Mongo insertion order), document ids as natural numbers
(generated fresh by taking max+1, standing in for ObjectId generation),
and each HTTP handler as a pure function from a request and a store
state to the new store state paired with a response.
-/

namespace Narratopia

/-! ## Content payloads and the word counter (`countWords`) -/

/-- A chapter content payload: `null`/absent, a plain-text string, a
Draft.js style block document (each block contributing a text span), or
any other shape (which `countWords` treats defensively). -/
inductive Content where
  | cnull : Content
  | ctext : String → Content
  | cblocks : List String → Content
  | cother : Content
deriving Repr, DecidableEq

/-- Character scanner computing the number of maximal runs of
non-whitespace characters.  The Boolean records whether the scanner is
currently inside such a run. -/
def tokensAux : Bool → List Char → Nat
  | _, [] => 0
  | inWord, c :: cs =>
    if c.isWhitespace then tokensAux false cs
    else if inWord then tokensAux true cs else 1 + tokensAux true cs

/-- Count of `content.split(/\s+/).filter(Boolean).length`: the number of maximal
whitespace-delimited non-empty tokens of a string. -/
def tokens (s : String) : Nat :=
  tokensAux false s.data

/-- Structural `String.isEmpty` (evaluates inside the kernel). -/
def strEmpty (s : String) : Bool :=
  s.data.isEmpty

/-- Structural `String.trim`: drop leading and trailing whitespace. -/
def strTrim (s : String) : String :=
  String.mk (((s.data.dropWhile Char.isWhitespace).reverse.dropWhile
    Char.isWhitespace).reverse)

/-- Structural split on commas (JS semantics: splitting the empty string gives one empty piece). -/
def splitCommaAux : List Char → List Char → List String
  | [], acc => [String.mk acc.reverse]
  | c :: cs, acc =>
    if c = ',' then String.mk acc.reverse :: splitCommaAux cs []
    else splitCommaAux cs (c :: acc)

/-- Split `types.split(',')` of the network-export type filter. -/
def splitComma (s : String) : List String :=
  splitCommaAux s.data []

/-- Embedding of `countWords` from the chapter controller.  The leading
`if (!content) return 0` makes the empty string return 0 (it is falsy);
a block document maps each block's text to its token count and sums;
any other shape returns 0 (also on exception, caught by the
surrounding try/catch). -/
def countWords : Content → Nat
  | .cnull => 0
  | .ctext s => if strEmpty s then 0 else tokens s
  | .cblocks bs => ((bs.map tokens).foldl (fun sum count => sum + count) 0)
  | .cother => 0

/-! ## Data model records -/

/-- A project row: only the fields the controllers consult. -/
structure Project where
  id : Nat
  userId : Nat
deriving Repr, DecidableEq

/-- A chapter row (`models/Chapter.js`). -/
structure Chapter where
  id : Nat
  projectId : Nat
  title : String
  orderIndex : Nat
  content : Content
  wordCount : Nat
  isComplete : Bool
  notes : String
deriving Repr, DecidableEq

/-- A version row (immutable snapshot of a chapter's content). -/
structure Version where
  id : Nat
  projectId : Nat
  chapterId : Nat
  content : Content
  wordCount : Nat
  description : String
deriving Repr, DecidableEq

/-- The store state seen by the chapter/version controller. -/
structure ChState where
  projects : List Project
  chapters : List Chapter
  versions : List Version
deriving Repr, DecidableEq

/-- Response outcome of a handler: success, or an error with an HTTP
status and message. -/
inductive Res where
  | ok : Res
  | err : Nat → String → Res
deriving Repr, DecidableEq

/-- Embedding of `checkProjectOwnership`: `none` means the check passed, otherwise
the (status, message) of the failure. -/
def checkProjectOwnership (projects : List Project) (projectId userId : Nat) :
    Option (Nat × String) :=
  match projects.find? fun p => p.id == projectId with
  | none => some (404, "Project not found")
  | some p => if p.userId == userId then none
              else some (403, "Not authorized to access this project")

/-- Fresh document id: one more than the largest id in use (stands in
for Mongo ObjectId generation; guaranteed not to collide). -/
def freshId (ids : List Nat) : Nat :=
  ids.foldr max 0 + 1

/-- Mongoose validation for a chapter title (`required`, `trim`,
`maxlength: 100`). -/
def titleValid (t : String) : Bool :=
  !(strEmpty (strTrim t)) && (strTrim t).length ≤ 100

/-! ## Chapter controller operations -/

/-- Embedding of `createChapter`: after the ownership check, reads the highest
`orderIndex` of the project's chapters (`findOne().sort({orderIndex:-1})`),
assigns `highest + 1` (or `1` when the project has no chapters), counts
words of the supplied content, and inserts the chapter.  A missing or
invalid title makes `Chapter.create` throw, surfacing as a 500 with no
row written. -/
def createChapter (projectId userId : Nat) (title : Option String)
    (content : Content) (notes : String) (st : ChState) : ChState × Res :=
  match checkProjectOwnership st.projects projectId userId with
  | some e => (st, .err e.1 e.2)
  | none =>
    let projChapters := st.chapters.filter fun c => c.projectId == projectId
    let orderIndex := (projChapters.map fun c => c.orderIndex).foldr max 0 + 1
    let wordCount := countWords content
    match title with
    | none => (st, .err 500 "Server error while creating chapter")
    | some t =>
      if titleValid t then
        let ch : Chapter :=
          ⟨freshId (st.chapters.map fun c => c.id), projectId, strTrim t,
           orderIndex, content, wordCount, false, notes⟩
        ({ st with chapters := st.chapters ++ [ch] }, .ok)
      else (st, .err 500 "Server error while creating chapter")

/-- Update the first list element satisfying `p` (the semantics of a
Mongo `findOneAndUpdate` / saving a single fetched document). -/
def updateFirst (p : Chapter → Bool) (f : Chapter → Chapter) :
    List Chapter → List Chapter
  | [] => []
  | c :: cs => if p c then f c :: cs else c :: updateFirst p f cs

/-- The per-row effect of the gap-closing
`updateMany({projectId: pid, orderIndex: {$gt: k}}, {$inc: {orderIndex: -1}})`:
a chapter of project `pid` with index above `k` is decremented, every
other chapter is untouched. -/
def shiftDown (pid k : Nat) (c : Chapter) : Chapter :=
  if c.projectId == pid && k < c.orderIndex then
    { c with orderIndex := c.orderIndex - 1 }
  else c

/-- Embedding of `deleteChapter`: finds the chapter (404 if absent), checks
ownership, deletes the chapter row (`findByIdAndDelete`) and its
versions (`Version.deleteMany({chapterId})`), then closes the gap with
`updateMany({projectId, orderIndex: {$gt: k}}, {$inc: {orderIndex: -1}})`. -/
def deleteChapter (chapterId userId : Nat) (st : ChState) : ChState × Res :=
  match st.chapters.find? fun c => c.id == chapterId with
  | none => (st, .err 404 "Chapter not found")
  | some ch =>
    match checkProjectOwnership st.projects ch.projectId userId with
    | some e => (st, .err e.1 e.2)
    | none =>
      let remaining := st.chapters.eraseP fun c => c.id == chapterId
      let renumbered := remaining.map (shiftDown ch.projectId ch.orderIndex)
      let versions := st.versions.filter fun v => !(v.chapterId == chapterId)
      ({ st with chapters := renumbered, versions := versions }, .ok)

/-- Embedding of `reorderChapters`: after the ownership check, maps each supplied
chapter id at position `i` to `findOneAndUpdate({_id, projectId},
{orderIndex: i + 1})`; ids that match no chapter of the project are
silently ignored.  (`Promise.all` of the per-id updates is determinised
as a left-to-right fold.) -/
def reorderChapters (projectId userId : Nat) (chapterOrder : List Nat)
    (st : ChState) : ChState × Res :=
  match checkProjectOwnership st.projects projectId userId with
  | some e => (st, .err e.1 e.2)
  | none =>
    let chapters := chapterOrder.enum.foldl
      (fun cs iid =>
        updateFirst (fun c => c.id == iid.2 && c.projectId == projectId)
          (fun c => { c with orderIndex := iid.1 + 1 }) cs)
      st.chapters
    ({ st with chapters := chapters }, .ok)

/-- The optional fields of a chapter `PUT` body. -/
structure ChapterUpdate where
  title : Option String
  content : Option Content
  notes : Option String
  orderIndex : Option Nat
  isComplete : Option Bool
deriving Repr, DecidableEq

/-- Build the `$set` document: every supplied field is written as
given; a supplied content also recomputes `wordCount`. -/
def applyUpdate (u : ChapterUpdate) (c : Chapter) : Chapter :=
  let c := match u.title with | none => c | some t => { c with title := strTrim t }
  let c := match u.content with
           | none => c
           | some x => { c with content := x, wordCount := countWords x }
  let c := match u.notes with | none => c | some n => { c with notes := n }
  let c := match u.orderIndex with | none => c | some i => { c with orderIndex := i }
  match u.isComplete with | none => c | some b => { c with isComplete := b }

/-- Check for `runValidators` on the `$set` paths: a supplied title must pass the
title validators, a supplied `orderIndex` must satisfy `min: 1`. -/
def updateValid (u : ChapterUpdate) : Bool :=
  (match u.title with | none => true | some t => titleValid t) &&
  (match u.orderIndex with | none => true | some i => 1 ≤ i)

/-- Embedding of `updateChapter`: finds the chapter (404 if absent), checks
ownership, then `findByIdAndUpdate` with the `$set` document built from
the supplied fields; a validator failure throws (500, nothing written).
A supplied `orderIndex` is written through as given. -/
def updateChapter (chapterId userId : Nat) (u : ChapterUpdate)
    (st : ChState) : ChState × Res :=
  match st.chapters.find? fun c => c.id == chapterId with
  | none => (st, .err 404 "Chapter not found")
  | some ch =>
    match checkProjectOwnership st.projects ch.projectId userId with
    | some e => (st, .err e.1 e.2)
    | none =>
      if updateValid u then
        ({ st with chapters :=
            updateFirst (fun c => c.id == chapterId) (applyUpdate u) st.chapters },
         .ok)
      else (st, .err 500 "Server error while updating chapter")

/-- Validation of `Version.create`: `VersionSchema.content` is a Mixed
path with `required: true`, whose required validator rejects exactly
null/undefined (any other value, including an empty string or an empty
object, passes a Mixed path). -/
def versionContentValid : Content → Bool
  | .cnull => false
  | _ => true

/-- Embedding of `createVersion`: snapshots the chapter's current content and word
count into a new version row; the description defaults to a label
embedding today's date (passed in as `today`).  When the chapter's
content is null, `Version.create` throws on the `required` content
validator — caught as a 500 with nothing written. -/
def createVersion (chapterId userId : Nat) (description : Option String)
    (today : String) (st : ChState) : ChState × Res :=
  match st.chapters.find? fun c => c.id == chapterId with
  | none => (st, .err 404 "Chapter not found")
  | some ch =>
    match checkProjectOwnership st.projects ch.projectId userId with
    | some e => (st, .err e.1 e.2)
    | none =>
      let d := match description with
               | some d => if strEmpty d then "Snapshot created on " ++ today else d
               | none => "Snapshot created on " ++ today
      if versionContentValid ch.content then
        let v : Version :=
          ⟨freshId (st.versions.map fun x => x.id), ch.projectId, ch.id,
           ch.content, ch.wordCount, d⟩
        ({ st with versions := st.versions ++ [v] }, .ok)
      else (st, .err 500 "Server error while creating version")

/-- Embedding of `restoreVersion`: finds the version (404), checks ownership, finds
the owning chapter (404), appends a safety snapshot of the chapter's
current content with the fixed description
"Auto-saved before version restore", then overwrites the chapter's
content and word count with the version's stored values.  When the
chapter's current content is null, the safety-snapshot `Version.create`
throws on the `required` content validator before anything is written —
caught as a 500 with the store unchanged. -/
def restoreVersion (versionId userId : Nat) (st : ChState) : ChState × Res :=
  match st.versions.find? fun v => v.id == versionId with
  | none => (st, .err 404 "Version not found")
  | some v =>
    match checkProjectOwnership st.projects v.projectId userId with
    | some e => (st, .err e.1 e.2)
    | none =>
      match st.chapters.find? fun c => c.id == v.chapterId with
      | none => (st, .err 404 "Associated chapter not found")
      | some ch =>
        if versionContentValid ch.content then
          let snap : Version :=
            ⟨freshId (st.versions.map fun x => x.id), ch.projectId, ch.id,
             ch.content, ch.wordCount, "Auto-saved before version restore"⟩
          let chapters := updateFirst (fun c => c.id == ch.id)
            (fun c => { c with content := v.content, wordCount := v.wordCount })
            st.chapters
          ({ st with chapters := chapters, versions := st.versions ++ [snap] },
           .ok)
        else (st, .err 500 "Server error while restoring version")

/-! ## The chapter ordering invariant -/

/-- The `orderIndex` values of a project's chapters, in store order. -/
def projIdxs (p : Nat) (chs : List Chapter) : List Nat :=
  (chs.filter fun c => c.projectId == p).map fun c => c.orderIndex

/-- The §3 invariant: the multiset of `orderIndex` values of a
project's chapters is exactly `{1..N}` (no gaps, no duplicates). -/
def contiguous (p : Nat) (chs : List Chapter) : Prop :=
  List.Perm (projIdxs p chs) (List.range' 1 (projIdxs p chs).length)

instance (p : Nat) (chs : List Chapter) : Decidable (contiguous p chs) := by
  unfold contiguous; infer_instance

/-! ## Chapter API step relation

One step per public chapter-collection mutation cited by the invariant
claim: insert (`createChapter`), delete (`deleteChapter`) and full
reorder (`reorderChapters`), each over arbitrary request data.  The
`reorder` step carries the side conditions under which the amended
invariant claim holds: the supplied id sequence is duplicate-free and
enumerates exactly the target project's chapters. -/

/-- One chapter-API mutation, with complete duplicate-free reorders. -/
inductive GoodStep : ChState → ChState → Prop
  | create (projectId userId : Nat) (title : Option String) (content : Content)
      (notes : String) (st : ChState) :
      GoodStep st (createChapter projectId userId title content notes st).1
  | delete (chapterId userId : Nat) (st : ChState) :
      GoodStep st (deleteChapter chapterId userId st).1
  | reorder (projectId userId : Nat) (chapterOrder : List Nat) (st : ChState)
      (hnodup : chapterOrder.Nodup)
      (hcomplete : ∀ i, i ∈ chapterOrder ↔
        i ∈ (st.chapters.filter fun c => c.projectId == projectId).map fun c => c.id) :
      GoodStep st (reorderChapters projectId userId chapterOrder st).1

/-- States reachable from a chapterless store by `GoodStep` steps. -/
def ChReachable (projects : List Project) (versions : List Version)
    (st : ChState) : Prop :=
  Relation.ReflTransGen GoodStep ⟨projects, [], versions⟩ st

/-! ## Relationship graph: data model -/

/-- A codex entity row: the fields the relationship controller reads. -/
structure Entity where
  id : Nat
  projectId : Nat
  name : String
  etype : String
deriving Repr, DecidableEq

/-- A relationship row (`models/Relationship.js`): a directed typed
edge between two codex entities of the same project. -/
structure Relationship where
  id : Nat
  projectId : Nat
  sourceId : Nat
  targetId : Nat
  rtype : String
  description : Option String
  strength : Int
deriving Repr, DecidableEq

/-- The store state seen by the relationship controller. -/
structure RelState where
  projects : List Project
  entities : List Entity
  rels : List Relationship
deriving Repr, DecidableEq

/-- Embedding of `validateEntity`: entity must exist (404) and belong to the stated
project (400). -/
def validateEntity (entities : List Entity) (entityId projectId : Nat) :
    Sum (Nat × String) Entity :=
  match entities.find? fun e => e.id == entityId with
  | none => Sum.inl (404, "Entity not found")
  | some e =>
    if e.projectId == projectId then Sum.inr e
    else Sum.inl (400, "Entity does not belong to this project")

/-- Whether a row with the same (project, source, target, type) triple
as `r` is present in `rels` (the unique-index key of
`models/Relationship.js`). -/
def tripleExists (rels : List Relationship) (projectId sourceId targetId : Nat)
    (rtype : String) : Bool :=
  rels.any fun x =>
    x.projectId == projectId && x.sourceId == sourceId &&
    x.targetId == targetId && x.rtype == rtype

/-- Embedding of `Relationship.create`: Mongoose validators (required trimmed type,
strength in [1,10]) run first; then the insert hits the unique index on
(projectId, sourceId, targetId, type).  Any failure throws (the caller
catches it as a 500) and writes nothing. -/
def relCreateDoc (r : Relationship) (rels : List Relationship) :
    Except String (List Relationship) :=
  if strEmpty (strTrim r.rtype) then .error "Relationship type is required"
  else if r.strength < 1 ∨ 10 < r.strength then .error "strength out of range"
  else if tripleExists rels r.projectId r.sourceId r.targetId r.rtype then
    .error "E11000 duplicate key error"
  else .ok (rels ++ [r])

/-- The body of a relationship `POST`. -/
structure RelCreateReq where
  sourceId : Option Nat
  targetId : Option Nat
  rtype : Option String
  description : Option String
  strength : Option Int
  createInverse : Bool
  inverseType : Option String
deriving Repr, DecidableEq

/-- Default `strength || 5`: a falsy strength (absent, null, or 0) becomes the
default 5. -/
def effStrength (s : Option Int) : Int :=
  match s with
  | none => 5
  | some v => if v = 0 then 5 else v

/-- Default `inverseType || type`: a falsy inverse type label falls back to the
primary type label. -/
def effInverseType (it : Option String) (ty : String) : String :=
  match it with
  | none => ty
  | some t => if strEmpty t then ty else t

/-- Embedding of `createRelationship`: required-field check (`!sourceId || !targetId
|| !type`), ownership check, endpoint validation, duplicate-triple
check (400 "This relationship already exists"), then the primary insert
and — when `createInverse` is truthy — a second insert with swapped
endpoints and `inverseType || type`.  A throw from either insert is
caught as a 500; a throw from the inverse insert leaves the already
persisted primary row in place. -/
def createRelationship (projectId userId : Nat) (req : RelCreateReq)
    (st : RelState) : RelState × Res :=
  match req.sourceId, req.targetId, req.rtype with
  | some sourceId, some targetId, some rtype =>
    if strEmpty rtype then
      (st, .err 400 "sourceId, targetId, and type are required")
    else
      match checkProjectOwnership st.projects projectId userId with
      | some e => (st, .err e.1 e.2)
      | none =>
        match validateEntity st.entities sourceId projectId with
        | Sum.inl e => (st, .err e.1 ("Source entity: " ++ e.2))
        | Sum.inr _ =>
          match validateEntity st.entities targetId projectId with
          | Sum.inl e => (st, .err e.1 ("Target entity: " ++ e.2))
          | Sum.inr _ =>
            if tripleExists st.rels projectId sourceId targetId rtype then
              (st, .err 400 "This relationship already exists")
            else
              let primary : Relationship :=
                ⟨freshId (st.rels.map fun r => r.id), projectId, sourceId,
                 targetId, rtype, req.description, effStrength req.strength⟩
              match relCreateDoc primary st.rels with
              | .error _ => (st, .err 500 "Server error while creating relationship")
              | .ok rels1 =>
                if req.createInverse then
                  let inverse : Relationship :=
                    ⟨freshId (rels1.map fun r => r.id), projectId, targetId,
                     sourceId, effInverseType req.inverseType rtype,
                     req.description, effStrength req.strength⟩
                  match relCreateDoc inverse rels1 with
                  | .error _ =>
                    ({ st with rels := rels1 },
                     .err 500 "Server error while creating relationship")
                  | .ok rels2 => ({ st with rels := rels2 }, .ok)
                else ({ st with rels := rels1 }, .ok)
  | _, _, _ => (st, .err 400 "sourceId, targetId, and type are required")

/-! ## Network export -/

/-- A node of the network view: `{id, label: name, group: type,
title: name}`. -/
structure NetNode where
  id : Nat
  label : String
  group : String
  title : String
deriving Repr, DecidableEq

/-- An edge of the network view: `{id, from, to, label: type, title:
description || type, value: strength || 1}` (`from`/`to` are rendered
here as `src`/`tgt` since `from` is reserved in Lean). -/
structure NetEdge where
  id : Nat
  src : Nat
  tgt : Nat
  label : String
  title : String
  value : Int
deriving Repr, DecidableEq

/-- Whether an entity passes the optional comma-separated type filter
(`types.split(',')`, membership via `$in`). -/
def typeSelected (types : Option String) (e : Entity) : Bool :=
  match types with
  | none => true
  | some ts => (splitComma ts).contains e.etype

/-- Embedding of `getNetworkData`: after the ownership check, selects the project's
entities (filtered by type when a filter is given), then the project's
relationships whose source and target ids are both among the selected
entity ids, and emits the node and edge views.  Read-only: the state is
returned unchanged. -/
def getNetworkData (projectId userId : Nat) (types : Option String)
    (st : RelState) :
    RelState × Except (Nat × String) (List NetNode × List NetEdge) :=
  match checkProjectOwnership st.projects projectId userId with
  | some e => (st, .error e)
  | none =>
    let entities := st.entities.filter fun e =>
      e.projectId == projectId && typeSelected types e
    let entityIds := entities.map fun e => e.id
    let relationships := st.rels.filter fun r =>
      r.projectId == projectId && entityIds.contains r.sourceId &&
      entityIds.contains r.targetId
    let nodes := entities.map fun e => NetNode.mk e.id e.name e.etype e.name
    let edges := relationships.map fun r =>
      NetEdge.mk r.id r.sourceId r.targetId r.rtype
        (match r.description with
         | some d => if strEmpty d then r.rtype else d
         | none => r.rtype)
        (if r.strength = 0 then 1 else r.strength)
    (st, .ok (nodes, edges))

/-! ## Concrete stores used by closed theorems and witnesses -/

/-- A store with one project (id 1, owner 1) and no chapters. -/
def chStore0 : ChState := ⟨[⟨1, 1⟩], [], []⟩

/-- Store `chStore0` after inserting chapter "A" through the API. -/
def chStore1 : ChState := (createChapter 1 1 (some "A") .cnull "" chStore0).1

/-- Store `chStore1` after inserting chapter "B" through the API: chapter ids
1 and 2 carrying order indices 1 and 2. -/
def chStore2 : ChState := (createChapter 1 1 (some "B") .cnull "" chStore1).1

/-- A relationship store: project 1 owned by user 1, two character
entities A (id 10) and B (id 11), and one edge B→A of type "parentOf"
(the inverse triple of the request in the C4 counterexample). -/
def relStoreInv : RelState :=
  ⟨[⟨1, 1⟩], [⟨10, 1, "A", "character"⟩, ⟨11, 1, "B", "character"⟩],
   [⟨100, 1, 11, 10, "parentOf", none, 5⟩]⟩

/-- A creation request: A→B "parentOf" with `createInverse` set and no
`inverseType`. -/
def reqParentOf : RelCreateReq :=
  ⟨some 10, some 11, some "parentOf", none, none, true, none⟩

/-! ## Helper lemmas -/

theorem mem_eraseP_id {l : List Chapter} {d : Chapter} {x : Nat}
    (hd : d ∈ l) (hne : d.id ≠ x) :
    d ∈ l.eraseP (fun c => c.id == x) := by
  induction l with
  | nil => simp at hd
  | cons a as ih =>
    rcases List.mem_cons.1 hd with rfl | hd'
    · have ha : (d.id == x) = false := by simpa using hne
      simp [List.eraseP_cons, ha]
    · by_cases ha : (a.id == x) = true
      · simp [List.eraseP_cons, ha, hd']
      · have ha' : (a.id == x) = false := by simpa using ha
        simp [List.eraseP_cons, ha', ih hd']

theorem updateFirst_mem_of_find? {q : Chapter → Bool} {f : Chapter → Chapter}
    {l : List Chapter} {c : Chapter} (h : l.find? q = some c) :
    f c ∈ updateFirst q f l := by
  induction l with
  | nil => simp at h
  | cons a as ih =>
    by_cases hq : q a
    · rw [List.find?_cons_of_pos as hq] at h
      obtain rfl : a = c := by injection h
      simp [updateFirst, hq]
    · rw [List.find?_cons_of_neg as hq] at h
      simp [updateFirst, hq, ih h]

/-! ## Reorder fold characterisation -/

theorem updateFirst_eq_map_id (pid cid v : Nat) (l : List Chapter)
    (h : (l.map fun c => c.id).Nodup) :
    updateFirst (fun c => c.id == cid && c.projectId == pid)
      (fun c => { c with orderIndex := v }) l =
    l.map fun c =>
      if c.id = cid ∧ c.projectId = pid then { c with orderIndex := v }
      else c := by
  induction l with
  | nil => rfl
  | cons a as ih =>
    rw [List.map_cons, List.nodup_cons] at h
    obtain ⟨ha, has⟩ := h
    by_cases hc : a.id = cid ∧ a.projectId = pid
    · have hb : (a.id == cid && a.projectId == pid) = true := by
        simp [hc.1, hc.2]
      have htail : as.map (fun c =>
          if c.id = cid ∧ c.projectId = pid then { c with orderIndex := v }
          else c) = as := by
        rw [show as.map (fun c =>
            if c.id = cid ∧ c.projectId = pid then { c with orderIndex := v }
            else c) = as.map (fun c => c) from ?_, List.map_id']
        apply List.map_congr_left
        intro b hb'
        have : b.id ≠ cid := by
          intro hid
          exact ha (hc.1 ▸ hid ▸ List.mem_map_of_mem (fun c => c.id) hb')
        simp [this]
      simp only [updateFirst, hb, if_true, List.map_cons, if_pos hc, htail]
    · have hb : (a.id == cid && a.projectId == pid) = false := by
        rcases not_and_or.1 hc with h1 | h1 <;> simp [h1]
      simp only [updateFirst, hb, Bool.false_eq_true, if_false, List.map_cons,
        if_neg hc, ih has]

/-- The reorder fold, characterised as one pointwise pass: a chapter of
the target project whose id occurs in the (duplicate-free) sequence
receives `n + position + 1`; every other chapter is untouched. -/
theorem reorderFold_eq_map (pid : Nat) (order : List Nat) :
    ∀ (n : Nat) (l : List Chapter),
    (l.map fun c => c.id).Nodup → order.Nodup →
    (order.enumFrom n).foldl (fun cs iid =>
        updateFirst (fun c => c.id == iid.2 && c.projectId == pid)
          (fun c => { c with orderIndex := iid.1 + 1 }) cs) l =
      l.map fun c =>
        if c.id ∈ order ∧ c.projectId = pid then
          { c with orderIndex := n + order.indexOf c.id + 1 } else c := by
  induction order with
  | nil =>
    intro n l hl ho
    simp
  | cons cid rest ih =>
    intro n l hl ho
    rw [List.nodup_cons] at ho
    obtain ⟨hcid, horest⟩ := ho
    rw [List.enumFrom_cons, List.foldl_cons]
    have hstep : updateFirst (fun c => c.id == (n, cid).2 && c.projectId == pid)
        (fun c => { c with orderIndex := (n, cid).1 + 1 }) l =
        l.map fun c =>
          if c.id = cid ∧ c.projectId = pid then { c with orderIndex := n + 1 }
          else c :=
      updateFirst_eq_map_id pid cid (n + 1) l hl
    rw [hstep]
    have hl' : ((l.map fun c =>
        if c.id = cid ∧ c.projectId = pid then { c with orderIndex := n + 1 }
        else c).map fun c => c.id).Nodup := by
      rw [List.map_map]
      have : ((fun c : Chapter => c.id) ∘ fun c =>
          if c.id = cid ∧ c.projectId = pid then { c with orderIndex := n + 1 }
          else c) = fun c => c.id := by
        funext c
        by_cases hc : c.id = cid ∧ c.projectId = pid <;>
          simp [Function.comp, hc]
      rw [this]
      exact hl
    rw [ih (n + 1) _ hl' horest, List.map_map]
    apply List.map_congr_left
    intro c hc
    by_cases h1 : c.projectId = pid
    · by_cases h2 : c.id = cid
      · simp [Function.comp, h2, h1, hcid, List.indexOf_cons_self]
      · by_cases h3 : c.id ∈ rest
        · have hne : cid ≠ c.id := fun h => h2 h.symm
          simp only [Function.comp, h2, h1, h3, if_neg, if_pos, and_true,
            and_false, if_false, List.mem_cons, false_or, or_true, if_true,
            List.indexOf_cons_ne rest hne, Nat.succ_eq_add_one]
          simp [h2]
          omega
        · simp [Function.comp, h2, h3, h1, List.mem_cons]
    · simp [Function.comp, h1]

/-! ## Invariant machinery for the contiguity claim -/

/-- The inductive invariant: stored chapter ids are pairwise distinct
and every project's index multiset is exactly `{1..N}`. -/
def chInv (st : ChState) : Prop :=
  (st.chapters.map fun c => c.id).Nodup ∧ ∀ p, contiguous p st.chapters

theorem le_foldr_max (l : List Nat) : ∀ x ∈ l, x ≤ l.foldr max 0 := by
  induction l with
  | nil => simp
  | cons a as ih =>
    intro x hx
    rcases List.mem_cons.1 hx with rfl | hx'
    · simp only [List.foldr_cons]
      exact Nat.le_max_left _ _
    · simp only [List.foldr_cons]
      exact le_trans (ih x hx') (Nat.le_max_right _ _)

theorem freshId_not_mem (ids : List Nat) : freshId ids ∉ ids := by
  intro h
  have h2 : freshId ids ≤ ids.foldr max 0 := le_foldr_max ids _ h
  simp only [freshId] at h2
  omega

theorem foldr_max_perm {l l' : List Nat} (p : List.Perm l l') :
    l.foldr max 0 = l'.foldr max 0 :=
  List.Perm.foldr_eq' p (fun x _ y _ z => by omega) 0

theorem foldr_max_range' : ∀ (n b : Nat), (List.range' 1 n).foldr max b = max n b := by
  intro n
  induction n with
  | zero => intro b; simp
  | succ m ih =>
    intro b
    rw [List.range'_concat, List.foldr_append]
    simp only [List.foldr_cons, List.foldr_nil]
    rw [ih]
    omega

theorem projIdxs_append (q : Nat) (l₁ l₂ : List Chapter) :
    projIdxs q (l₁ ++ l₂) = projIdxs q l₁ ++ projIdxs q l₂ := by
  simp [projIdxs, List.filter_append]

theorem projIdxs_cons (q : Nat) (c : Chapter) (l : List Chapter) :
    projIdxs q (c :: l) =
      if c.projectId = q then c.orderIndex :: projIdxs q l
      else projIdxs q l := by
  by_cases h : c.projectId = q <;> simp [projIdxs, List.filter_cons, h]

/-- Pushing a projectId-preserving rewriting function through
`projIdxs`. -/
theorem projIdxs_map (q : Nat) (g : Chapter → Chapter)
    (hg : ∀ c, (g c).projectId = c.projectId) (l : List Chapter) :
    projIdxs q (l.map g) =
      (l.filter fun c => c.projectId == q).map fun c => (g c).orderIndex := by
  induction l with
  | nil => rfl
  | cons a as ih =>
    rw [List.map_cons]
    by_cases h : a.projectId = q
    · have h1 : ((g a).projectId == q) = true := by simp [hg a, h]
      have h2 : (a.projectId == q) = true := by simp [h]
      simp only [projIdxs, List.filter_cons, h1, h2, if_true, List.map_cons]
      exact congrArg _ ih
    · have h1 : ((g a).projectId == q) = false := by simp [hg a, h]
      have h2 : (a.projectId == q) = false := by simp [h]
      simp only [projIdxs, List.filter_cons, h1, h2, Bool.false_eq_true,
        if_false]
      exact ih

/-- Chapter insertion preserves the id-uniqueness and contiguity
invariant. -/
theorem chInv_create (st : ChState) (projectId userId : Nat)
    (title : Option String) (content : Content) (notes : String)
    (h : chInv st) :
    chInv (createChapter projectId userId title content notes st).1 := by
  obtain ⟨hids, hcont⟩ := h
  unfold createChapter
  cases ho : checkProjectOwnership st.projects projectId userId with
  | some e => exact ⟨hids, hcont⟩
  | none =>
    cases title with
    | none => exact ⟨hids, hcont⟩
    | some t =>
      by_cases hv : titleValid t
      · simp only [hv, if_true]
        constructor
        · rw [List.map_append]
          rw [List.nodup_append]
          refine ⟨hids, List.nodup_singleton _, ?_⟩
          intro x hx hy
          simp only [List.map_cons, List.map_nil, List.mem_cons,
            List.not_mem_nil, or_false] at hy
          subst hy
          exact freshId_not_mem _ hx
        · intro q
          by_cases hq : projectId = q
          · subst hq
            have hnew : projIdxs projectId (st.chapters ++
                [⟨freshId (st.chapters.map fun c => c.id), projectId, strTrim t,
                  ((st.chapters.filter fun c => c.projectId == projectId).map
                    fun c => c.orderIndex).foldr max 0 + 1,
                  content, countWords content, false, notes⟩]) =
                projIdxs projectId st.chapters ++
                  [(projIdxs projectId st.chapters).foldr max 0 + 1] := by
              rw [projIdxs_append, projIdxs_cons]
              simp [projIdxs]
            have hp := hcont projectId
            have hN : (projIdxs projectId st.chapters).foldr max 0 =
                (projIdxs projectId st.chapters).length := by
              rw [foldr_max_perm hp, foldr_max_range']
              omega
            unfold contiguous
            rw [hnew, hN]
            have hlen : (projIdxs projectId st.chapters ++
                [(projIdxs projectId st.chapters).length + 1]).length =
                (projIdxs projectId st.chapters).length + 1 := by
              simp
            rw [hlen]
            have hconc : List.range' 1 ((projIdxs projectId st.chapters).length + 1) =
                List.range' 1 (projIdxs projectId st.chapters).length ++
                  [(projIdxs projectId st.chapters).length + 1] := by
              rw [List.range'_concat]
              congr 1
              simp
              omega
            rw [hconc]
            exact hp.append_right _
          · have hne : projIdxs q (st.chapters ++
                [⟨freshId (st.chapters.map fun c => c.id), projectId, strTrim t,
                  ((st.chapters.filter fun c => c.projectId == projectId).map
                    fun c => c.orderIndex).foldr max 0 + 1,
                  content, countWords content, false, notes⟩]) =
                projIdxs q st.chapters := by
              rw [projIdxs_append, projIdxs_cons]
              simp [projIdxs, hq]
            unfold contiguous
            rw [hne]
            exact hcont q
      · simp only [hv, Bool.false_eq_true, if_false]
        exact ⟨hids, hcont⟩

theorem eraseP_id_split (x : Nat) (as bs : List Chapter) (ch : Chapter)
    (hch : ch.id = x) (has : ∀ a ∈ as, a.id ≠ x) :
    ((as ++ ch :: bs).eraseP fun c => c.id == x) = as ++ bs := by
  induction as with
  | nil => simp [List.eraseP_cons, hch]
  | cons a t ih =>
    have ha : (a.id == x) = false := by
      simpa using has a (List.mem_cons_self a t)
    simp only [List.cons_append, List.eraseP_cons, ha, cond_false]
    rw [ih (fun b hb => has b (List.mem_cons_of_mem a hb))]

theorem nodup_ids_map_of_id_preserving (g : Chapter → Chapter)
    (hg : ∀ c, (g c).id = c.id) (l : List Chapter)
    (h : (l.map fun c => c.id).Nodup) :
    ((l.map g).map fun c => c.id).Nodup := by
  rw [List.map_map]
  have he : ((fun c : Chapter => c.id) ∘ g) = fun c => c.id :=
    funext fun c => hg c
  rw [he]
  exact h

theorem range'_erase_map_dec (N k : Nat) (h1 : 1 ≤ k) (h2 : k ≤ N) :
    ((List.range' 1 N).erase k).map (fun i => if k < i then i - 1 else i) =
    List.range' 1 (N - 1) := by
  have e1 : 1 + (k - 1) = k := by omega
  have e2 : N - k + 1 + (k - 1) = N := by omega
  have hsplit : List.range' 1 N =
      List.range' 1 (k - 1) ++ List.range' k (N - k + 1) := by
    calc List.range' 1 N
        = List.range' 1 (N - k + 1 + (k - 1)) := by rw [e2]
      _ = List.range' 1 (k - 1) ++ List.range' (1 + (k - 1)) (N - k + 1) :=
          (List.range'_append_1 1 (k - 1) (N - k + 1)).symm
      _ = List.range' 1 (k - 1) ++ List.range' k (N - k + 1) := by rw [e1]
  have hk1 : List.range' k (N - k + 1) = k :: List.range' (k + 1) (N - k) :=
    List.range'_succ k (N - k) 1
  have hnot : k ∉ List.range' 1 (k - 1) := by
    intro hm
    rw [List.mem_range'] at hm
    obtain ⟨i, hi, he⟩ := hm
    omega
  rw [hsplit, hk1, List.erase_append_right _ hnot, List.erase_cons_head,
    List.map_append]
  have hm1 : (List.range' 1 (k - 1)).map (fun i => if k < i then i - 1 else i) =
      List.range' 1 (k - 1) := by
    have hc : ∀ i ∈ List.range' 1 (k - 1),
        (if k < i then i - 1 else i) = i := by
      intro i hi
      rw [List.mem_range'] at hi
      obtain ⟨j, hj, he⟩ := hi
      have : ¬ k < i := by omega
      simp [this]
    rw [List.map_congr_left hc, List.map_id']
  have hm2 : (List.range' (k + 1) (N - k)).map
      (fun i => if k < i then i - 1 else i) = List.range' k (N - k) := by
    have hrw : List.range' (k + 1) (N - k) =
        (List.range' k (N - k)).map (1 + ·) := by
      rw [List.map_add_range']
      congr 1
      omega
    rw [hrw, List.map_map]
    have hc : ∀ i ∈ List.range' k (N - k),
        ((fun i => if k < i then i - 1 else i) ∘ (1 + ·)) i = i := by
      intro i hi
      rw [List.mem_range'] at hi
      obtain ⟨j, hj, he⟩ := hi
      have hlt : k < 1 + i := by omega
      simp only [Function.comp, if_pos hlt]
      omega
    rw [List.map_congr_left hc, List.map_id']
  rw [hm1, hm2]
  calc List.range' 1 (k - 1) ++ List.range' k (N - k)
      = List.range' 1 (k - 1) ++ List.range' (1 + (k - 1)) (N - k) := by rw [e1]
    _ = List.range' 1 (N - k + (k - 1)) :=
        List.range'_append_1 1 (k - 1) (N - k)
    _ = List.range' 1 (N - 1) := by congr 1; omega

/-- Chapter deletion preserves the id-uniqueness and contiguity
invariant. -/
theorem chInv_delete (st : ChState) (chapterId userId : Nat) (h : chInv st) :
    chInv (deleteChapter chapterId userId st).1 := by
  obtain ⟨hids, hcont⟩ := h
  cases hf : st.chapters.find? (fun c => c.id == chapterId) with
  | none =>
    simp only [deleteChapter, hf]
    exact ⟨hids, hcont⟩
  | some ch =>
    cases ho : checkProjectOwnership st.projects ch.projectId userId with
    | some e =>
      simp only [deleteChapter, hf, ho]
      exact ⟨hids, hcont⟩
    | none =>
      have hf' := hf
      rw [List.find?_eq_some] at hf'
      obtain ⟨hpch, as, bs, hsplit, has⟩ := hf'
      have hchid : ch.id = chapterId := by simpa using hpch
      have hek : (st.chapters.eraseP fun c => c.id == chapterId) = as ++ bs := by
        rw [hsplit]
        exact eraseP_id_split chapterId as bs ch hchid
          (fun a ha => by simpa using has a ha)
      have hgproj : ∀ c, (shiftDown ch.projectId ch.orderIndex c).projectId =
          c.projectId := by
        intro c
        unfold shiftDown
        split <;> rfl
      have hgid : ∀ c, (shiftDown ch.projectId ch.orderIndex c).id = c.id := by
        intro c
        unfold shiftDown
        split <;> rfl
      simp only [deleteChapter, hf, ho, hek]
      have hsub : ((as ++ bs).map fun c => c.id).Sublist
          (st.chapters.map fun c => c.id) := by
        rw [hsplit]
        exact List.Sublist.map _ ((List.sublist_cons_self ch bs).append_left as)
      refine ⟨?_, ?_⟩
      · exact nodup_ids_map_of_id_preserving _ hgid (as ++ bs)
          (hsub.nodup hids)
      · intro q
        show contiguous q ((as ++ bs).map (shiftDown ch.projectId ch.orderIndex))
        unfold contiguous
        rw [projIdxs_map q _ hgproj]
        by_cases hq : q = ch.projectId
        · have hNew : (((as ++ bs).filter fun c => c.projectId == q).map
              fun c => (shiftDown ch.projectId ch.orderIndex c).orderIndex) =
              (projIdxs q (as ++ bs)).map
                (fun i => if ch.orderIndex < i then i - 1 else i) := by
            unfold projIdxs
            rw [List.map_map]
            apply List.map_congr_left
            intro c hc
            have hcq : c.projectId = q := by
              simpa using (List.mem_filter.1 hc).2
            have hcc : (c.projectId == ch.projectId) = true := by
              simp [hcq, hq]
            unfold shiftDown
            simp only [Function.comp, hcc, Bool.true_and]
            by_cases hlt : ch.orderIndex < c.orderIndex
            · simp [hlt]
            · simp [hlt]
          rw [hNew]
          have hold : projIdxs q st.chapters =
              projIdxs q as ++ ch.orderIndex :: projIdxs q bs := by
            rw [hsplit, projIdxs_append, projIdxs_cons, if_pos hq.symm]
          have hp := hcont q
          unfold contiguous at hp
          rw [hold] at hp
          rw [projIdxs_append]
          have hmid : List.Perm
              (ch.orderIndex :: (projIdxs q as ++ projIdxs q bs))
              (List.range' 1 (projIdxs q as ++
                ch.orderIndex :: projIdxs q bs).length) :=
            List.perm_middle.symm.trans hp
          have hkmem : ch.orderIndex ∈ List.range' 1 (projIdxs q as ++
              ch.orderIndex :: projIdxs q bs).length :=
            hmid.subset (List.mem_cons_self _ _)
          have hkb : 1 ≤ ch.orderIndex ∧ ch.orderIndex ≤ (projIdxs q as ++
              ch.orderIndex :: projIdxs q bs).length := by
            rw [List.mem_range'] at hkmem
            obtain ⟨i, hi, he⟩ := hkmem
            omega
          have herase := (List.cons_perm_iff_perm_erase.1 hmid).2
          have hmap := herase.map
            (fun i => if ch.orderIndex < i then i - 1 else i)
          rw [range'_erase_map_dec _ _ hkb.1 hkb.2] at hmap
          have hlen2 : (((projIdxs q as ++ projIdxs q bs)).map
              (fun i => if ch.orderIndex < i then i - 1 else i)).length =
              (projIdxs q as ++ ch.orderIndex :: projIdxs q bs).length - 1 := by
            simp
          rw [hlen2]
          exact hmap
        · have hsame : (((as ++ bs).filter fun c => c.projectId == q).map
              fun c => (shiftDown ch.projectId ch.orderIndex c).orderIndex) =
              projIdxs q (as ++ bs) := by
            unfold projIdxs
            apply List.map_congr_left
            intro c hc
            have hcq : c.projectId = q := by
              simpa using (List.mem_filter.1 hc).2
            have hcc : (c.projectId == ch.projectId) = false := by
              simp only [beq_eq_false_iff_ne, ne_eq]
              rw [hcq]
              exact fun he => hq he
            unfold shiftDown
            simp [hcc]
          rw [hsame]
          have heq : projIdxs q (as ++ bs) = projIdxs q st.chapters := by
            rw [hsplit, projIdxs_append, projIdxs_append, projIdxs_cons,
              if_neg (fun he => hq he.symm)]
          rw [heq]
          have hp := hcont q
          unfold contiguous at hp
          exact hp

theorem indexOf_map_self (l : List Nat) (h : l.Nodup) :
    l.map (fun x => l.indexOf x) = List.range l.length := by
  induction l with
  | nil => rfl
  | cons a t ih =>
    rw [List.nodup_cons] at h
    obtain ⟨ha, ht⟩ := h
    rw [List.map_cons, List.indexOf_cons_self]
    have h1 : t.map (fun x => (a :: t).indexOf x) =
        t.map (fun x => t.indexOf x + 1) := by
      apply List.map_congr_left
      intro x hx
      have hne : a ≠ x := fun he => ha (he ▸ hx)
      rw [List.indexOf_cons_ne t hne]
    have h2 : t.map (fun x => t.indexOf x + 1) =
        (t.map fun x => t.indexOf x).map (fun j => j + 1) :=
      (List.map_map _ _ _).symm
    rw [h1, h2, ih ht, List.length_cons, List.range_succ_eq_map]

/-- A complete duplicate-free reorder preserves the id-uniqueness and
contiguity invariant. -/
theorem chInv_reorder (st : ChState) (projectId userId : Nat)
    (order : List Nat) (hord : order.Nodup)
    (hcomplete : ∀ i, i ∈ order ↔
      i ∈ (st.chapters.filter fun c => c.projectId == projectId).map
        fun c => c.id)
    (h : chInv st) :
    chInv (reorderChapters projectId userId order st).1 := by
  obtain ⟨hids, hcont⟩ := h
  cases ho : checkProjectOwnership st.projects projectId userId with
  | some e =>
    simp only [reorderChapters, ho]
    exact ⟨hids, hcont⟩
  | none =>
    have hfold := reorderFold_eq_map projectId order 0 st.chapters hids hord
    have hch : (reorderChapters projectId userId order st).1.chapters =
        st.chapters.map (fun c =>
          if c.id ∈ order ∧ c.projectId = projectId then
            { c with orderIndex := 0 + order.indexOf c.id + 1 } else c) := by
      simp only [reorderChapters, ho]
      exact hfold
    have hGid : ∀ c : Chapter, ((fun c =>
        if c.id ∈ order ∧ c.projectId = projectId then
          { c with orderIndex := 0 + order.indexOf c.id + 1 } else c) c).id =
        c.id := by
      intro c
      by_cases hc : c.id ∈ order ∧ c.projectId = projectId <;> simp [hc]
    have hGproj : ∀ c : Chapter, ((fun c =>
        if c.id ∈ order ∧ c.projectId = projectId then
          { c with orderIndex := 0 + order.indexOf c.id + 1 } else c) c).projectId =
        c.projectId := by
      intro c
      by_cases hc : c.id ∈ order ∧ c.projectId = projectId <;> simp [hc]
    refine ⟨?_, ?_⟩
    · rw [hch]
      exact nodup_ids_map_of_id_preserving _ hGid st.chapters hids
    · intro q
      unfold contiguous
      rw [hch, projIdxs_map q _ hGproj]
      by_cases hq : q = projectId
      · subst hq
        have hsel : ((st.chapters.filter fun c => c.projectId == q).map
            fun c => ((fun c =>
              if c.id ∈ order ∧ c.projectId = q then
                { c with orderIndex := 0 + order.indexOf c.id + 1 }
              else c) c).orderIndex) =
            ((st.chapters.filter fun c => c.projectId == q).map
              fun c => c.id).map (fun i => 0 + order.indexOf i + 1) := by
          rw [List.map_map]
          apply List.map_congr_left
          intro c hc
          have hcp : c.projectId = q := by
            simpa using (List.mem_filter.1 hc).2
          have hcm : c.id ∈ order :=
            (hcomplete c.id).2 (List.mem_map_of_mem (fun c => c.id) hc)
          simp [Function.comp, hcm, hcp]
        rw [hsel]
        have hpnodup : ((st.chapters.filter fun c => c.projectId == q).map
            fun c => c.id).Nodup := by
          have hsubl : ((st.chapters.filter fun c => c.projectId == q).map
              fun c => c.id).Sublist (st.chapters.map fun c => c.id) :=
            List.Sublist.map _ (List.filter_sublist _)
          exact hsubl.nodup hids
        have hperm : List.Perm order ((st.chapters.filter
            fun c => c.projectId == q).map fun c => c.id) := by
          rw [List.perm_ext_iff_of_nodup hord hpnodup]
          exact hcomplete
        have hmap := hperm.map (fun i => 0 + order.indexOf i + 1)
        have hordmap : order.map (fun i => 0 + order.indexOf i + 1) =
            List.range' 1 order.length := by
          have h1 : order.map (fun i => 0 + order.indexOf i + 1) =
              order.map (fun i => order.indexOf i + 1) := by
            apply List.map_congr_left
            intro i hi
            omega
          have h2 : order.map (fun i => order.indexOf i + 1) =
              (order.map fun i => order.indexOf i).map (fun j => j + 1) :=
            (List.map_map _ _ _).symm
          rw [h1, h2, indexOf_map_self order hord, List.range'_eq_map_range]
          apply List.map_congr_left
          intro i hi
          omega
        have hlen : (((st.chapters.filter fun c => c.projectId == q).map
            fun c => c.id).map (fun i => 0 + order.indexOf i + 1)).length =
            order.length := by
          rw [List.length_map, ← hperm.length_eq]
        rw [hlen, ← hordmap]
        exact hmap.symm
      · have hsame : ((st.chapters.filter fun c => c.projectId == q).map
            fun c => ((fun c =>
              if c.id ∈ order ∧ c.projectId = projectId then
                { c with orderIndex := 0 + order.indexOf c.id + 1 }
              else c) c).orderIndex) = projIdxs q st.chapters := by
          unfold projIdxs
          apply List.map_congr_left
          intro c hc
          have hcp : c.projectId = q := by
            simpa using (List.mem_filter.1 hc).2
          have hcnd : ¬(c.id ∈ order ∧ c.projectId = projectId) :=
            fun hx => hq (by rw [← hcp]; exact hx.2)
          simp [hcnd]
        rw [hsame]
        have hp := hcont q
        unfold contiguous at hp
        exact hp

/-- Every `GoodStep` preserves the invariant. -/
theorem chInv_step {st st' : ChState} (h : chInv st) (hs : GoodStep st st') :
    chInv st' := by
  cases hs with
  | create p u title content notes st => exact chInv_create st p u title content notes h
  | delete x u st => exact chInv_delete st x u h
  | reorder p u order st hnd hcomp => exact chInv_reorder st p u order hnd hcomp h

/-! ## Claim theorems -/

/-- C6: `countWords` is a total deterministic function to `Nat` (hence
never fails and is never negative): absent content and the empty string
give 0; plain text gives the count of maximal whitespace-delimited
non-empty tokens (`"hello   world"` ↦ 2); a block document gives the
sum of that count over its blocks (`{blocks:[{text:"a b"},{text:"c"}]}`
↦ 3); any other shape gives 0. -/
theorem countWords_spec :
    countWords .cnull = 0 ∧
    countWords (.ctext "") = 0 ∧
    (∀ s : String, countWords (.ctext s) = tokens s) ∧
    countWords (.ctext "hello   world") = 2 ∧
    (∀ bs : List String, countWords (.cblocks bs) = (bs.map tokens).sum) ∧
    countWords (.cblocks ["a b", "c"]) = 3 ∧
    countWords .cother = 0 := by
  refine ⟨rfl, rfl, ?_, by decide, ?_, by decide, rfl⟩
  · intro s
    show (if strEmpty s then 0 else tokens s) = tokens s
    by_cases h : strEmpty s = true
    · have hd : s.data = [] := by
        simpa [strEmpty, List.isEmpty_iff] using h
      simp [h, tokens, hd, tokensAux]
    · simp [h]
  · intro bs
    show (bs.map tokens).foldl (fun a b => a + b) 0 = (bs.map tokens).sum
    generalize bs.map tokens = l
    have key : ∀ (l : List Nat) (a : Nat), l.foldl (fun x y => x + y) a = a + l.sum := by
      intro l
      induction l with
      | nil => simp
      | cons x xs ih => intro a; simp [List.foldl_cons, ih, List.sum_cons]; omega
    simpa using key l 0

/-- C9: the chapter update handler writes a caller-supplied
`orderIndex` straight through: on a store whose project satisfies the
contiguity invariant ({1,2} over two chapters), updating chapter 1 with
`orderIndex = 2` succeeds, stores index 2 on chapter 1, and leaves the
project's index multiset as {2,2} — the invariant is not preserved by
every public chapter operation. -/
theorem updateChapter_breaks_invariant :
    contiguous 1 chStore2.chapters ∧
    (updateChapter 1 1 ⟨none, none, none, some 2, none⟩ chStore2).2 = .ok ∧
    (((updateChapter 1 1 ⟨none, none, none, some 2, none⟩ chStore2).1.chapters.find?
        fun c => c.id == 1).map fun c => c.orderIndex) = some 2 ∧
    ¬ contiguous 1 (updateChapter 1 1 ⟨none, none, none, some 2, none⟩ chStore2).1.chapters := by
  decide

/-- C1 (counterexample): a sequence of chapter-API operations — insert
"A", insert "B", then a full reorder whose id list omits chapter 1 —
succeeds yet leaves project 1 with index multiset {1,1}: the contiguity
invariant does not survive every insert/delete/reorder sequence. -/
theorem reorder_breaks_invariant :
    contiguous 1 chStore2.chapters ∧
    (reorderChapters 1 1 [2] chStore2).2 = .ok ∧
    ¬ contiguous 1 (reorderChapters 1 1 [2] chStore2).1.chapters := by
  decide

/-- C4 (counterexample): with the inverse triple (project 1, B→A,
"parentOf") already persisted, creating A→B "parentOf" with
`createInverse` and no `inverseType` is not rejected the way the
primary duplicate check rejects (400 "This relationship already
exists" with nothing written): it surfaces as a 500 and the primary
A→B row has already been persisted. -/
theorem createInverse_duplicate_not_bad_request :
    (createRelationship 1 1 reqParentOf relStoreInv).2 =
      .err 500 "Server error while creating relationship" ∧
    (createRelationship 1 1 reqParentOf relStoreInv).1.rels =
      relStoreInv.rels ++
        [⟨101, 1, 10, 11, "parentOf", none, 5⟩] := by
  decide

/-- A store for exercising version restore: one chapter (id 1, content
"old words here", wordCount 3) and one version of it (id 1, content
"new", wordCount 1). -/
def chStoreV : ChState :=
  ⟨[⟨1, 1⟩], [⟨1, 1, "A", 1, .ctext "old words here", 3, false, ""⟩],
   [⟨1, 1, 1, .ctext "new", 1, "snap"⟩]⟩

/-- A store like `chStoreV` but whose chapter currently has null
content (reachable through the API by updating the chapter with
`content: null`), while an earlier version of it exists. -/
def chStoreVNull : ChState :=
  ⟨[⟨1, 1⟩], [⟨1, 1, "A", 1, .cnull, 0, false, ""⟩],
   [⟨1, 1, 1, .ctext "new", 1, "snap"⟩]⟩

/-- C3 (counterexample): the claim as stated fails when the owning
chapter's current content is null — the version exists and its chapter
exists, yet restoring creates no safety snapshot and does not set the
chapter's content to the version's values: the snapshot's `required`
content validator throws, the request fails as a 500, and the store is
completely unchanged. -/
theorem restoreVersion_null_content_fails :
    (restoreVersion 1 1 chStoreVNull).2 =
      .err 500 "Server error while restoring version" ∧
    (restoreVersion 1 1 chStoreVNull).1 = chStoreVNull := by
  decide

/-- C3 (amended): restoring an existing version `v` whose owning chapter `ch`
exists, with `ch`'s current content passing the safety snapshot's
`required` content validator (i.e. not null — a null-content chapter
makes `Version.create` throw, a 500 with nothing written), (a) appends
exactly one new version row holding the chapter's pre-restore content
and word count under the fixed safety description, (b) overwrites the
chapter's content and word count with `v`'s stored values, and (c)
leaves `v` itself unmodified and still retrievable by its id. -/
theorem restoreVersion_spec (st : ChState) (versionId userId : Nat)
    (v : Version) (ch : Chapter)
    (hv : st.versions.find? (fun x => x.id == versionId) = some v)
    (hown : checkProjectOwnership st.projects v.projectId userId = none)
    (hch : st.chapters.find? (fun c => c.id == v.chapterId) = some ch)
    (hcv : versionContentValid ch.content = true) :
    (restoreVersion versionId userId st).2 = .ok ∧
    (restoreVersion versionId userId st).1.versions =
      st.versions ++
        [⟨freshId (st.versions.map fun x => x.id), ch.projectId, ch.id,
          ch.content, ch.wordCount, "Auto-saved before version restore"⟩] ∧
    ({ ch with content := v.content, wordCount := v.wordCount } : Chapter) ∈
      (restoreVersion versionId userId st).1.chapters ∧
    (restoreVersion versionId userId st).1.versions.find?
      (fun x => x.id == versionId) = some v := by
  have hid : ch.id = v.chapterId := by
    have h1 := List.find?_some hch
    simpa using h1
  have hch' : st.chapters.find? (fun c => c.id == ch.id) = some ch := by
    rw [hid]; exact hch
  simp only [restoreVersion, hv, hown, hch, hcv]
  refine ⟨by trivial, by trivial, ?_, ?_⟩
  · exact updateFirst_mem_of_find? hch'
  · simp [List.find?_append, hv]

/-- Witness for C3 at the concrete store `chStoreV`. -/
theorem restoreVersion_spec_witness :
    (restoreVersion 1 1 chStoreV).2 = .ok ∧
    (restoreVersion 1 1 chStoreV).1.versions =
      chStoreV.versions ++
        [⟨freshId (chStoreV.versions.map fun x => x.id), 1, 1,
          .ctext "old words here", 3, "Auto-saved before version restore"⟩] ∧
    (⟨1, 1, "A", 1, .ctext "new", 1, false, ""⟩ : Chapter) ∈
      (restoreVersion 1 1 chStoreV).1.chapters ∧
    (restoreVersion 1 1 chStoreV).1.versions.find?
      (fun x => x.id == 1) = some ⟨1, 1, 1, .ctext "new", 1, "snap"⟩ :=
  restoreVersion_spec chStoreV 1 1 ⟨1, 1, 1, .ctext "new", 1, "snap"⟩
    ⟨1, 1, "A", 1, .ctext "old words here", 3, false, ""⟩
    (by decide) (by decide) (by decide) (by decide)

/-- A store for exercising chapter deletion: project 1 with chapters
1/2/3 at indices 1/2/3, a second project (id 2, owner 2) with chapter
4 at index 1, and one version attached to chapter 2. -/
def chStoreDel : ChState :=
  ⟨[⟨1, 1⟩, ⟨2, 2⟩],
   [⟨1, 1, "A", 1, .cnull, 0, false, ""⟩, ⟨2, 1, "B", 2, .cnull, 0, false, ""⟩,
    ⟨3, 1, "C", 3, .cnull, 0, false, ""⟩, ⟨4, 2, "X", 1, .cnull, 0, false, ""⟩],
   [⟨1, 1, 2, .cnull, 0, "snap"⟩]⟩

/-- C2: deleting the chapter with order index `k` succeeds and, for
every other chapter of the store: a chapter of the same project with
index above `k` survives with its index decremented by exactly 1; a
chapter of the same project with index not above `k` survives
unchanged; and a chapter of any other project survives unchanged. -/
theorem deleteChapter_spec (st : ChState) (chapterId userId : Nat) (ch : Chapter)
    (hf : st.chapters.find? (fun c => c.id == chapterId) = some ch)
    (hown : checkProjectOwnership st.projects ch.projectId userId = none)
    (hids : (st.chapters.map fun c => c.id).Nodup) :
    (deleteChapter chapterId userId st).2 = .ok ∧
    (∀ d ∈ st.chapters, d.id ≠ chapterId → d.projectId = ch.projectId →
      ch.orderIndex < d.orderIndex →
      ({ d with orderIndex := d.orderIndex - 1 } : Chapter) ∈
        (deleteChapter chapterId userId st).1.chapters) ∧
    (∀ d ∈ st.chapters, d.id ≠ chapterId → d.projectId = ch.projectId →
      ¬ ch.orderIndex < d.orderIndex →
      d ∈ (deleteChapter chapterId userId st).1.chapters) ∧
    (∀ d ∈ st.chapters, d.projectId ≠ ch.projectId →
      d ∈ (deleteChapter chapterId userId st).1.chapters) := by
  have hchid : ch.id = chapterId := by
    have h1 := List.find?_some hf
    simpa using h1
  have hchmem : ch ∈ st.chapters := List.mem_of_find?_eq_some hf
  have hmem_erase : ∀ d ∈ st.chapters, d.id ≠ chapterId →
      d ∈ st.chapters.eraseP (fun c => c.id == chapterId) := by
    intro d hd hne
    exact mem_eraseP_id hd hne
  simp only [deleteChapter, hf, hown]
  refine ⟨by trivial, ?_, ?_, ?_⟩
  · intro d hd hne hproj hlt
    have hd' := hmem_erase d hd hne
    have := List.mem_map_of_mem (shiftDown ch.projectId ch.orderIndex) hd'
    simpa [shiftDown, hproj, hlt] using this
  · intro d hd hne hproj hnlt
    have hd' := hmem_erase d hd hne
    have := List.mem_map_of_mem (shiftDown ch.projectId ch.orderIndex) hd'
    simpa [shiftDown, hproj, hnlt] using this
  · intro d hd hproj
    have hne : d.id ≠ chapterId := by
      intro h
      exact hproj (congrArg Chapter.projectId
        (List.inj_on_of_nodup_map hids hd hchmem (h.trans hchid.symm)))
    have hd' := hmem_erase d hd hne
    have := List.mem_map_of_mem (shiftDown ch.projectId ch.orderIndex) hd'
    simpa [shiftDown, hproj] using this

/-- Witness for C2 on `chStoreDel`: deleting chapter 2 (index 2)
decrements chapter 3 to index 2, keeps chapter 1 at index 1, and keeps
the other project's chapter 4 untouched. -/
theorem deleteChapter_spec_witness :
    (deleteChapter 2 1 chStoreDel).2 = .ok ∧
    (⟨3, 1, "C", 2, .cnull, 0, false, ""⟩ : Chapter) ∈
      (deleteChapter 2 1 chStoreDel).1.chapters ∧
    (⟨1, 1, "A", 1, .cnull, 0, false, ""⟩ : Chapter) ∈
      (deleteChapter 2 1 chStoreDel).1.chapters ∧
    (⟨4, 2, "X", 1, .cnull, 0, false, ""⟩ : Chapter) ∈
      (deleteChapter 2 1 chStoreDel).1.chapters := by
  have h := deleteChapter_spec chStoreDel 2 1 ⟨2, 1, "B", 2, .cnull, 0, false, ""⟩
    (by decide) (by decide) (by decide)
  refine ⟨h.1, ?_, ?_, ?_⟩
  · exact h.2.1 ⟨3, 1, "C", 3, .cnull, 0, false, ""⟩ (by decide) (by decide)
      (by decide) (by decide)
  · exact h.2.2.1 ⟨1, 1, "A", 1, .cnull, 0, false, ""⟩ (by decide) (by decide)
      (by decide) (by decide)
  · exact h.2.2.2 ⟨4, 2, "X", 1, .cnull, 0, false, ""⟩ (by decide) (by decide)

/-- C5: when the (project, source, target, type) triple of a
relationship-create request is already present, the store is left
completely unchanged (no primary row, no inverse row — this holds
whatever else the request contains), and whenever the request survives
the preceding field/ownership/endpoint checks the response is the
Bad-Request failure 400 "This relationship already exists". -/
theorem createRelationship_duplicate_spec (st : RelState) (projectId userId : Nat)
    (req : RelCreateReq) (sourceId targetId : Nat) (ty : String)
    (hs : req.sourceId = some sourceId) (ht : req.targetId = some targetId)
    (hty : req.rtype = some ty)
    (hdup : tripleExists st.rels projectId sourceId targetId ty = true) :
    (createRelationship projectId userId req st).1 = st ∧
    (strEmpty ty = false →
      checkProjectOwnership st.projects projectId userId = none →
      (∃ es, validateEntity st.entities sourceId projectId = Sum.inr es) →
      (∃ et, validateEntity st.entities targetId projectId = Sum.inr et) →
      (createRelationship projectId userId req st).2 =
        .err 400 "This relationship already exists") := by
  constructor
  · simp only [createRelationship, hs, ht, hty]
    split
    · rfl
    · split
      · rfl
      · split
        · rfl
        · split
          · rfl
          · simp [hdup]
  · intro h1 h2 h3 h4
    obtain ⟨es, hes⟩ := h3
    obtain ⟨et, het⟩ := h4
    simp [createRelationship, hs, ht, hty, h1, h2, hes, het, hdup]

/-- Witness for C5: the request duplicating the stored B→A "parentOf"
edge of `relStoreInv` changes nothing and is answered 400. -/
theorem createRelationship_duplicate_spec_witness :
    (createRelationship 1 1 ⟨some 11, some 10, some "parentOf", none, none,
        false, none⟩ relStoreInv).1 = relStoreInv ∧
    (createRelationship 1 1 ⟨some 11, some 10, some "parentOf", none, none,
        false, none⟩ relStoreInv).2 =
      .err 400 "This relationship already exists" := by
  have h := createRelationship_duplicate_spec relStoreInv 1 1
    ⟨some 11, some 10, some "parentOf", none, none, false, none⟩ 11 10 "parentOf"
    rfl rfl rfl (by decide)
  exact ⟨h.1, h.2 (by decide) (by decide)
    ⟨⟨11, 1, "B", "character"⟩, by decide⟩ ⟨⟨10, 1, "A", "character"⟩, by decide⟩⟩

/-- A relationship store for the network-export witness: entity 10 is a
character, entity 11 a location; edge 100 joins them, edge 101 is a
character-to-character self loop. -/
def relNetStore : RelState :=
  ⟨[⟨1, 1⟩],
   [⟨10, 1, "A", "character"⟩, ⟨11, 1, "B", "location"⟩],
   [⟨100, 1, 10, 11, "knows", none, 5⟩, ⟨101, 1, 10, 10, "self", some "d", 3⟩]⟩

/-- C7: the network export mutates nothing (the store is returned
unchanged, in particular every relationship's strength and type), emits
exactly one node per selected entity carrying id / label = name /
group = type, only selects entities whose type passes the filter, and
every emitted edge has both endpoints among the emitted node ids — so
with a type filter no edge can touch an entity whose type is outside
the filter. -/
theorem getNetworkData_spec (st : RelState) (projectId userId : Nat)
    (types : Option String)
    (hown : checkProjectOwnership st.projects projectId userId = none) :
    (getNetworkData projectId userId types st).1 = st ∧
    ∃ nodes edges,
      (getNetworkData projectId userId types st).2 = .ok (nodes, edges) ∧
      (∀ n ∈ nodes, ∃ e ∈ st.entities, e.projectId = projectId ∧
        typeSelected types e = true ∧ n = ⟨e.id, e.name, e.etype, e.name⟩) ∧
      (∀ e ∈ st.entities, e.projectId = projectId → typeSelected types e = true →
        (⟨e.id, e.name, e.etype, e.name⟩ : NetNode) ∈ nodes) ∧
      (∀ ts, types = some ts → ∀ n ∈ nodes, n.group ∈ splitComma ts) ∧
      (∀ ed ∈ edges, (ed.src ∈ nodes.map fun n => n.id) ∧
        (ed.tgt ∈ nodes.map fun n => n.id)) := by
  simp only [getNetworkData, hown]
  refine ⟨by trivial, _, _, rfl, ?_, ?_, ?_, ?_⟩
  · intro n hn
    obtain ⟨e, he, rfl⟩ := List.mem_map.1 hn
    obtain ⟨he1, he2⟩ := List.mem_filter.1 he
    rw [Bool.and_eq_true] at he2
    obtain ⟨hp, hsel⟩ := he2
    exact ⟨e, he1, by simpa using hp, hsel, rfl⟩
  · intro e he hp hsel
    exact List.mem_map_of_mem _ (List.mem_filter.2 ⟨he, by simp [hp, hsel]⟩)
  · rintro ts rfl n hn
    obtain ⟨e, he, rfl⟩ := List.mem_map.1 hn
    obtain ⟨he1, he2⟩ := List.mem_filter.1 he
    rw [Bool.and_eq_true] at he2
    obtain ⟨hp, hsel⟩ := he2
    simpa [typeSelected, List.elem_iff] using hsel
  · intro ed hed
    obtain ⟨r, hr, rfl⟩ := List.mem_map.1 hed
    obtain ⟨hr1, hr2⟩ := List.mem_filter.1 hr
    rw [Bool.and_eq_true, Bool.and_eq_true] at hr2
    obtain ⟨⟨hp, hsrc⟩, htg⟩ := hr2
    constructor
    · simpa [List.map_map, Function.comp, List.elem_iff] using hsrc
    · simpa [List.map_map, Function.comp, List.elem_iff] using htg

/-- Witness for C7 at `relNetStore` with filter "character". -/
theorem getNetworkData_spec_witness :
    (getNetworkData 1 1 (some "character") relNetStore).1 = relNetStore :=
  (getNetworkData_spec relNetStore 1 1 (some "character") (by decide)).1

/-- A relationship store with two character entities and no edges. -/
def relStoreFresh : RelState :=
  ⟨[⟨1, 1⟩], [⟨10, 1, "A", "character"⟩, ⟨11, 1, "B", "character"⟩], []⟩

/-- The primary row a successful `createRelationship` run appends. -/
def primaryRel (st : RelState) (p sId tId : Nat) (ty : String)
    (desc : Option String) (s : Int) : Relationship :=
  ⟨freshId (st.rels.map fun r => r.id), p, sId, tId, ty, desc, s⟩

/-- The inverse row appended after the primary one when `createInverse`
is set (swapped endpoints, id fresh over the store holding the primary
row). -/
def inverseRel (st : RelState) (p sId tId : Nat) (ty : String)
    (desc : Option String) (s : Int) : Relationship :=
  ⟨freshId ((st.rels ++ [primaryRel st p sId tId ty desc s]).map fun r => r.id),
   p, tId, sId, ty, desc, s⟩

/-- C4 (amended): with `createInverse` set and no `inverseType`, and the
primary triple absent, the primary edge (source→target, type) is
persisted and a second edge with swapped endpoints and the same type is
attempted.  The inverse insert is guarded only by the store's unique
index, not by the controller's duplicate check: when the inverse triple
is not yet present both edges end up persisted (response ok); when it
is already present the request fails as a 500 internal error with the
primary edge already persisted — not as the Bad-Request
"already exists" rejection the primary check produces. -/
theorem createRelationship_inverse_spec (st : RelState) (p u sId tId : Nat)
    (ty : String) (desc : Option String) (str : Option Int)
    (hty : strEmpty ty = false) (htrim : strEmpty (strTrim ty) = false)
    (hrange : 1 ≤ effStrength str ∧ effStrength str ≤ 10)
    (hown : checkProjectOwnership st.projects p u = none)
    (hs : ∃ es, validateEntity st.entities sId p = Sum.inr es)
    (ht : ∃ et, validateEntity st.entities tId p = Sum.inr et)
    (hnodup : tripleExists st.rels p sId tId ty = false) :
    (tripleExists (st.rels ++ [primaryRel st p sId tId ty desc
        (effStrength str)]) p tId sId ty = false →
      (createRelationship p u ⟨some sId, some tId, some ty, desc, str, true,
          none⟩ st).1.rels =
        st.rels ++ [primaryRel st p sId tId ty desc (effStrength str),
          inverseRel st p sId tId ty desc (effStrength str)] ∧
      (createRelationship p u ⟨some sId, some tId, some ty, desc, str, true,
          none⟩ st).2 = .ok) ∧
    (tripleExists (st.rels ++ [primaryRel st p sId tId ty desc
        (effStrength str)]) p tId sId ty = true →
      (createRelationship p u ⟨some sId, some tId, some ty, desc, str, true,
          none⟩ st).1.rels =
        st.rels ++ [primaryRel st p sId tId ty desc (effStrength str)] ∧
      (createRelationship p u ⟨some sId, some tId, some ty, desc, str, true,
          none⟩ st).2 = .err 500 "Server error while creating relationship") := by
  obtain ⟨es, hes⟩ := hs
  obtain ⟨et, het⟩ := ht
  have hr : ¬(effStrength str < 1 ∨ 10 < effStrength str) := by omega
  rw [primaryRel] at *
  constructor
  · intro hinv
    constructor <;>
      simp [createRelationship, relCreateDoc, effInverseType, inverseRel,
        primaryRel, hty, htrim, hown, hes, het, hnodup, hinv, hr]
  · intro hinv
    constructor <;>
      simp [createRelationship, relCreateDoc, effInverseType, inverseRel,
        primaryRel, hty, htrim, hown, hes, het, hnodup, hinv, hr]

/-- Witness for the amended C4 on the empty-edge store
`relStoreFresh`: both edges are persisted. -/
theorem createRelationship_inverse_spec_witness :
    (createRelationship 1 1 reqParentOf relStoreFresh).1.rels =
      relStoreFresh.rels ++
        [⟨1, 1, 10, 11, "parentOf", none, 5⟩,
         ⟨2, 1, 11, 10, "parentOf", none, 5⟩] ∧
    (createRelationship 1 1 reqParentOf relStoreFresh).2 = .ok :=
  (createRelationship_inverse_spec relStoreFresh 1 1 10 11 "parentOf" none none
    (by decide) (by decide) (by decide) (by decide)
    ⟨⟨10, 1, "A", "character"⟩, by decide⟩
    ⟨⟨11, 1, "B", "character"⟩, by decide⟩ (by decide)).1 (by decide)

/-- C10: a falsy supplied strength (absent, null, or 0) is silently
replaced by the default 5 on both the primary and the inverse edge
instead of being rejected by the [1,10] range validation (the request
succeeds), and the inverse edge copies the primary request's
description and strength — there is no separate inverse description or
strength input. -/
theorem createRelationship_falsy_strength_spec (st : RelState) (p u sId tId : Nat)
    (ty : String) (desc : Option String) (str : Option Int)
    (hfalsy : str = none ∨ str = some 0)
    (hty : strEmpty ty = false) (htrim : strEmpty (strTrim ty) = false)
    (hown : checkProjectOwnership st.projects p u = none)
    (hs : ∃ es, validateEntity st.entities sId p = Sum.inr es)
    (ht : ∃ et, validateEntity st.entities tId p = Sum.inr et)
    (hnodup : tripleExists st.rels p sId tId ty = false)
    (hnodup2 : tripleExists (st.rels ++ [primaryRel st p sId tId ty desc 5])
        p tId sId ty = false) :
    (createRelationship p u ⟨some sId, some tId, some ty, desc, str, true,
        none⟩ st).2 = .ok ∧
    ∃ r1 r2,
      (createRelationship p u ⟨some sId, some tId, some ty, desc, str, true,
          none⟩ st).1.rels = st.rels ++ [r1, r2] ∧
      r1.strength = 5 ∧ r2.strength = 5 ∧
      r1.description = desc ∧ r2.description = desc ∧
      r1.sourceId = sId ∧ r1.targetId = tId ∧
      r2.sourceId = tId ∧ r2.targetId = sId := by
  obtain ⟨es, hes⟩ := hs
  obtain ⟨et, het⟩ := ht
  have h5 : effStrength str = 5 := by
    rcases hfalsy with rfl | rfl <;> simp [effStrength]
  have hr : ¬(effStrength str < 1 ∨ 10 < effStrength str) := by omega
  rw [primaryRel] at hnodup2
  constructor
  · simp [createRelationship, relCreateDoc, effInverseType, hty, htrim, hown,
      hes, het, hnodup, hr, h5, hnodup2]
  · refine ⟨primaryRel st p sId tId ty desc 5,
      inverseRel st p sId tId ty desc 5,
      ?_, rfl, rfl, rfl, rfl, rfl, rfl, rfl, rfl⟩
    simp [createRelationship, relCreateDoc, effInverseType, inverseRel,
      primaryRel, hty, htrim, hown, hes, het, hnodup, hr, h5, hnodup2]

/-- Witness for C10: a request with strength 0 on `relStoreFresh`. -/
theorem createRelationship_falsy_strength_spec_witness :
    (createRelationship 1 1 ⟨some 10, some 11, some "parentOf", none, some 0,
        true, none⟩ relStoreFresh).2 = .ok ∧
    ∃ r1 r2,
      (createRelationship 1 1 ⟨some 10, some 11, some "parentOf", none, some 0,
          true, none⟩ relStoreFresh).1.rels = relStoreFresh.rels ++ [r1, r2] ∧
      r1.strength = 5 ∧ r2.strength = 5 ∧
      r1.description = none ∧ r2.description = none ∧
      r1.sourceId = 10 ∧ r1.targetId = 11 ∧
      r2.sourceId = 11 ∧ r2.targetId = 10 :=
  createRelationship_falsy_strength_spec relStoreFresh 1 1 10 11 "parentOf"
    none (some 0) (Or.inr rfl) (by decide) (by decide) (by decide)
    ⟨⟨10, 1, "A", "character"⟩, by decide⟩
    ⟨⟨11, 1, "B", "character"⟩, by decide⟩ (by decide) (by decide)

/-- C8: for a full reorder with a duplicate-free id sequence, the
request succeeds, no chapter is created or deleted (the stored id
sequence is unchanged, so supplied identities outside the project are
silently ignored), every chapter of the project whose id sits at
position `i` of the sequence is stored with `orderIndex = i + 1`, and
every chapter either outside the project or omitted from the sequence
keeps its record (in particular its old `orderIndex`) unchanged. -/
theorem reorderChapters_spec (st : ChState) (projectId userId : Nat)
    (order : List Nat)
    (hids : (st.chapters.map fun c => c.id).Nodup) (hord : order.Nodup)
    (hown : checkProjectOwnership st.projects projectId userId = none) :
    (reorderChapters projectId userId order st).2 = .ok ∧
    ((reorderChapters projectId userId order st).1.chapters.map fun c => c.id) =
      (st.chapters.map fun c => c.id) ∧
    (∀ i : Fin order.length, ∀ c ∈ st.chapters,
      c.id = order.get i → c.projectId = projectId →
      ({ c with orderIndex := i.1 + 1 } : Chapter) ∈
        (reorderChapters projectId userId order st).1.chapters) ∧
    (∀ c ∈ st.chapters, c.projectId ≠ projectId ∨ c.id ∉ order →
      c ∈ (reorderChapters projectId userId order st).1.chapters) := by
  have hfold := reorderFold_eq_map projectId order 0 st.chapters hids hord
  have hch : (reorderChapters projectId userId order st).1.chapters =
      st.chapters.map fun c =>
        if c.id ∈ order ∧ c.projectId = projectId then
          { c with orderIndex := 0 + order.indexOf c.id + 1 } else c := by
    simp only [reorderChapters, hown]
    exact hfold
  refine ⟨?_, ?_, ?_, ?_⟩
  · simp only [reorderChapters, hown]
  · rw [hch, List.map_map]
    apply List.map_congr_left
    intro c hc
    by_cases h : c.id ∈ order ∧ c.projectId = projectId <;>
      simp [Function.comp, h]
  · intro i c hc hcid hproj
    rw [hch]
    have hmem : c.id ∈ order := hcid ▸ List.get_mem order i.1 i.2
    have hidx : order.indexOf c.id = i.1 := by
      rw [hcid]
      have := List.indexOf_getElem hord i.1 i.2
      simpa [List.get_eq_getElem] using this
    have := List.mem_map_of_mem (fun c =>
      if c.id ∈ order ∧ c.projectId = projectId then
        { c with orderIndex := 0 + order.indexOf c.id + 1 } else c) hc
    simpa [hmem, hproj, hidx] using this
  · intro c hc hout
    rw [hch]
    have hcond : ¬(c.id ∈ order ∧ c.projectId = projectId) := by
      rcases hout with h | h
      · exact fun hx => h hx.2
      · exact fun hx => h hx.1
    have := List.mem_map_of_mem (fun c =>
      if c.id ∈ order ∧ c.projectId = projectId then
        { c with orderIndex := 0 + order.indexOf c.id + 1 } else c) hc
    simpa [hcond] using this

/-- Witness for C8 on `chStoreDel`: reordering project 1 with the id
sequence [3, 99, 1] (2 omitted, 99 alien) succeeds, creates nothing,
assigns index 1 to chapter 3 and index 3 to chapter 1, and leaves the
omitted chapter 2 and the other project's chapter 4 unchanged. -/
theorem reorderChapters_spec_witness :
    (reorderChapters 1 1 [3, 99, 1] chStoreDel).2 = .ok ∧
    ((reorderChapters 1 1 [3, 99, 1] chStoreDel).1.chapters.map fun c => c.id) =
      (chStoreDel.chapters.map fun c => c.id) ∧
    (⟨3, 1, "C", 1, .cnull, 0, false, ""⟩ : Chapter) ∈
      (reorderChapters 1 1 [3, 99, 1] chStoreDel).1.chapters ∧
    (⟨1, 1, "A", 3, .cnull, 0, false, ""⟩ : Chapter) ∈
      (reorderChapters 1 1 [3, 99, 1] chStoreDel).1.chapters ∧
    (⟨2, 1, "B", 2, .cnull, 0, false, ""⟩ : Chapter) ∈
      (reorderChapters 1 1 [3, 99, 1] chStoreDel).1.chapters ∧
    (⟨4, 2, "X", 1, .cnull, 0, false, ""⟩ : Chapter) ∈
      (reorderChapters 1 1 [3, 99, 1] chStoreDel).1.chapters := by
  have h := reorderChapters_spec chStoreDel 1 1 [3, 99, 1]
    (by decide) (by decide) (by decide)
  refine ⟨h.1, h.2.1, ?_, ?_, ?_, ?_⟩
  · exact h.2.2.1 ⟨0, by decide⟩ ⟨3, 1, "C", 3, .cnull, 0, false, ""⟩
      (by decide) (by decide) (by decide)
  · exact h.2.2.1 ⟨2, by decide⟩ ⟨1, 1, "A", 1, .cnull, 0, false, ""⟩
      (by decide) (by decide) (by decide)
  · exact h.2.2.2 ⟨2, 1, "B", 2, .cnull, 0, false, ""⟩ (by decide)
      (Or.inr (by decide))
  · exact h.2.2.2 ⟨4, 2, "X", 1, .cnull, 0, false, ""⟩ (by decide)
      (Or.inl (by decide))

/-- C1 (amended): starting from a project store with no chapters, after
any finite sequence of chapter inserts, deletes and full reorders in
which every reorder supplies a duplicate-free sequence consisting of
exactly the target project's chapter ids, the multiset of `orderIndex`
values of every project's chapters is exactly `{1..N}` (no gaps, no
duplicates).  Without that restriction on reorders the invariant fails,
see the counterexample. -/
theorem chapter_ordering_invariant (projects : List Project)
    (versions : List Version) (st : ChState)
    (h : ChReachable projects versions st) (p : Nat) :
    contiguous p st.chapters := by
  have hinv : chInv st := by
    unfold ChReachable at h
    induction h with
    | refl =>
      refine ⟨by simp, fun q => ?_⟩
      unfold contiguous projIdxs
      simp
    | tail hsteps hstep ih => exact chInv_step ih hstep
  exact hinv.2 p

/-- Witness for the amended C1: one insert step from the empty store
reaches `chStore1`, whose single project is contiguous. -/
theorem chapter_ordering_invariant_witness :
    contiguous 1 chStore1.chapters :=
  chapter_ordering_invariant [⟨1, 1⟩] [] chStore1
    (Relation.ReflTransGen.single
      (GoodStep.create 1 1 (some "A") Content.cnull "" chStore0)) 1

end Narratopia
